import Mathlib

set_option linter.unusedVariables false
set_option linter.unnecessarySeqFocus false

/-!
A shallow embedding of `vite-plugin-generate-html-i18n`
(`src/vite-plugin-generate-html-i18n.ts`): the `closeBundle` pipeline that,
for every declared language and every discovered HTML file, parses the file,
runs the configured hooks and per-element translation substitution, and
writes the serialized document into a per-language subdirectory.

The DOM is modelled abstractly (as the spec's §9 suggests): a document is a
mutable tree reduced to document-level attributes plus an ordered list of
elements, and `parse`/`serialize` are abstract capabilities carried in the
configuration.  Caller-supplied hooks are ordinary functions.  JavaScript
`undefined` is `Option.none`; JS truthiness of `string | undefined` (used by
`if (key)` and `!translations[lang][key]`) is modelled explicitly.  The
filesystem is a map from path to content plus a set of created directories.
-/

namespace I18n

/-- One DOM element: its attributes and its inner HTML. -/
structure Element where
  attrs : List (String × String)
  innerHTML : String
deriving Repr, DecidableEq

/-- A parsed HTML document: document-level attributes (e.g. on `<html>`)
plus its elements in document order. -/
structure Document where
  docAttrs : List (String × String)
  elems : List Element
deriving Repr, DecidableEq

/-- One language's translation table (`Record<TranslationKey, string>`),
as an association list in key order. -/
abbrev Translations := List (String × String)

/-- The `translations` option: language → per-language table, in key order
(JS object keys are in insertion order). -/
abbrev TranslationTable := List (String × Translations)

/-- JS property read `table[key]` on a string record: `undefined` is `none`. -/
def lookupTr (t : Translations) (k : String) : Option String :=
  (t.find? (fun p => p.1 == k)).map (fun p => p.2)

/-- `translations[lang]` for a language taken from `Object.keys(translations)`. -/
def lookupLang (t : TranslationTable) (l : String) : Translations :=
  ((t.find? (fun p => p.1 == l)).map (fun p => p.2)).getD []

/-- JS truthiness of a `string | undefined` value: `undefined` and `""` are
falsy, every other string is truthy. -/
def falsyOpt : Option String → Bool
  | none => true
  | some s => s == ""

/-- JS `v || ""` for `v : string | undefined`. -/
def jsOrEmpty : Option String → String
  | none => ""
  | some s => s

/-- The `meta` object `{key, language, translations}` passed to
`formatTranslation` and `modifyElement`. -/
structure TrMeta where
  key : String
  language : String
  translations : Translations
deriving Repr

/-- The `meta` object `{language, translations}` passed to
`modifyDocumentBefore` and `modifyDocumentAfter`. -/
structure DocMeta where
  language : String
  translations : Translations
deriving Repr

/-- The caller-supplied hook slots of `ViteGenerateHtmlI18nOptions`
(pure view; the value argument of `formatTranslation`/`modifyElement`
is `translations[lang][key]`, which may be `undefined`, hence `Option`). -/
structure Hooks where
  getTranslationKey : Element → Option String
  formatTranslation : Option (Option String → TrMeta → String)
  modifyElement : Option (Element → Option String → TrMeta → Element)
  modifyDocumentBefore : Option (Document → DocMeta → Document)
  modifyDocumentAfter : Option (Document → DocMeta → Document)
  verbose : Bool
  missingTranslationVerboseFilter : String → String → Translations → Bool

/-- Observable events of one run, in order: hook invocations, the
missing-translation warning, the assignment to `element.innerHTML`
(`format` carries the looked-up value passed to the format hook and the
rendered fragment), and the empty-discovery log message. -/
inductive Event where
  | beforeHook : Event
  | extract : Option String → Event
  | warn : String → String → Event
  | format : String → Option String → String → Event
  | mutate : String → Option String → List (String × String) → Event
  | afterHook : List (String × String) → Event
  | discoveryEmpty : Event
deriving Repr, DecidableEq

/-- The missing-translation diagnostic of the element step
(source lines 251–265): warn iff `!translations[lang][key]` and `verbose`
and the filter returns true. -/
def warnEvents (hooks : Hooks) (lang : String) (trs : Translations) (key : String) :
    List Event :=
  if falsyOpt (lookupTr trs key) then
    if hooks.verbose then
      if hooks.missingTranslationVerboseFilter key lang trs then
        [Event.warn key lang]
      else []
    else []
  else []

/-- The fragment assigned to `element.innerHTML` (source lines 267–275):
the format hook applied to `translations[lang][key]`, or
`translations[lang][key] || ""` when no hook is configured. -/
def renderValue (hooks : Hooks) (lang : String) (trs : Translations) (key : String) :
    String :=
  match hooks.formatTranslation with
  | some f => f (lookupTr trs key) ⟨key, lang, trs⟩
  | none => jsOrEmpty (lookupTr trs key)

/-- The per-element body of the `elements.forEach` loop
(source lines 247–285): extract the key; if it is truthy, warn on a falsy
translation value, set `innerHTML` to the rendered fragment, then call
`modifyElement` with the raw looked-up value. -/
def processElement (hooks : Hooks) (lang : String) (trs : Translations)
    (docAttrs : List (String × String)) (e : Element) : Element × List Event :=
  match hooks.getTranslationKey e with
  | none => (e, [Event.extract none])
  | some key =>
    if key = "" then (e, [Event.extract (some "")])
    else
      let r := renderValue hooks lang trs key
      let e1 : Element := { e with innerHTML := r }
      match hooks.modifyElement with
      | some m =>
        (m e1 (lookupTr trs key) ⟨key, lang, trs⟩,
          Event.extract (some key) :: (warnEvents hooks lang trs key ++
            [Event.format key (lookupTr trs key) r,
             Event.mutate key (lookupTr trs key) docAttrs]))
      | none =>
        (e1, Event.extract (some key) :: (warnEvents hooks lang trs key ++
          [Event.format key (lookupTr trs key) r]))

/-- `modifyDocumentBefore`, when configured (source lines 238–243). -/
def applyBefore (hooks : Hooks) (lang : String) (trs : Translations)
    (d : Document) : Document :=
  match hooks.modifyDocumentBefore with
  | some f => f d ⟨lang, trs⟩
  | none => d

/-- `modifyDocumentAfter`, when configured (source lines 287–292). -/
def applyAfter (hooks : Hooks) (lang : String) (trs : Translations)
    (d : Document) : Document :=
  match hooks.modifyDocumentAfter with
  | some g => g d ⟨lang, trs⟩
  | none => d

def beforeEvents (hooks : Hooks) : List Event :=
  match hooks.modifyDocumentBefore with
  | some _ => [Event.beforeHook]
  | none => []

def afterEvents (hooks : Hooks) (docAttrs : List (String × String)) : List Event :=
  match hooks.modifyDocumentAfter with
  | some _ => [Event.afterHook docAttrs]
  | none => []

/-- The whole plugin configuration together with the abstract document
capability (`parse` = `new JSDOM(html)`, `serialize` = `jsdom.serialize()`,
`selector` = membership in `document.querySelectorAll(selector)`). -/
structure Config where
  table : TranslationTable
  selector : Element → Bool
  hooks : Hooks
  parse : String → Document
  serialize : Document → String

/-- `Object.keys(translations)` (source line 188). -/
def langsOf (cfg : Config) : List String := cfg.table.map (fun p => p.1)

/-- The per-(file, language) document pass (source lines 238–297):
before-hook, then each selected element in document order, then
after-hook.  Also returns the event trace of the pass. -/
def processDocument (cfg : Config) (lang : String) (trs : Translations)
    (d : Document) : Document × List Event :=
  let d1 := applyBefore cfg.hooks lang trs d
  let processed := d1.elems.map (fun e =>
    if cfg.selector e then processElement cfg.hooks lang trs d1.docAttrs e
    else (e, []))
  let d2 : Document := ⟨d1.docAttrs, processed.map (fun p => p.1)⟩
  (applyAfter cfg.hooks lang trs d2,
    beforeEvents cfg.hooks ++ (processed.map (fun p => p.2)).flatten ++
      afterEvents cfg.hooks d2.docAttrs)

/-- The serialized artifact for one (file, language) pass, as a function of
the source text (source lines 231–297: parse, process, serialize). -/
def artifact (cfg : Config) (lang : String) (html : String) : String :=
  cfg.serialize (processDocument cfg lang (lookupLang cfg.table lang) (cfg.parse html)).1

/-- The event trace of one (file, language) pass. -/
def docEvents (cfg : Config) (lang : String) (html : String) : List Event :=
  (processDocument cfg lang (lookupLang cfg.table lang) (cfg.parse html)).2

/-! ### Paths (POSIX model of `path.dirname` / `path.basename` / `path.flatten`) -/

/-- Split a character list on `'/'` (always returns a nonempty list). -/
def splitSeg : List Char → List (List Char)
  | [] => [[]]
  | c :: rest =>
    if c = '/' then [] :: splitSeg rest
    else
      match splitSeg rest with
      | [] => [[c]]
      | s :: ss => (c :: s) :: ss

/-- Rejoin segments with `'/'`. -/
def joinSegs : List (List Char) → List Char
  | [] => []
  | [s] => s
  | s :: rest => s ++ '/' :: joinSegs rest

def pathSegs (p : String) : List (List Char) := splitSeg p.data

/-- `path.dirname`. -/
def dirname (p : String) : String := ⟨joinSegs (pathSegs p).dropLast⟩

/-- `path.basename`. -/
def basename (p : String) : String := ⟨((pathSegs p).getLast?).getD p.data⟩

/-- `path.flatten` for two segments (empty parts are dropped, as in Node). -/
def joinPath (a b : String) : String :=
  if a = "" then b else if b = "" then a else a ++ "/" ++ b

/-- All non-empty prefixes of a segment list, joined:
`[a, a/b, a/b/c, …]`. -/
def prefixJoins : List (List Char) → List (List Char)
  | [] => []
  | s :: rest => s :: (prefixJoins rest).map (fun t => s ++ '/' :: t)

/-- The directories `mkdirSync(p, {recursive: true})` would create:
`p` itself and every intermediate path. -/
def ancestorsOf (p : String) : List String :=
  (prefixJoins (pathSegs p)).map (fun cs => (⟨cs⟩ : String))

/-! ### Filesystem model -/

/-- The filesystem seen by the plugin: file contents and the set of
directories known to exist. -/
structure FS where
  files : String → Option String
  dirs : String → Bool

/-- `writeFileSync`: overwrites any existing content at `p`. -/
def writeFile (fs : FS) (p : String) (c : String) : FS :=
  { fs with files := fun q => if q = p then some c else fs.files q }

/-- `mkdirSync(p, {recursive: true})`: creates `p` and all missing
intermediate directories; a no-op on directories that already exist. -/
def mkdirRec (fs : FS) (p : String) : FS :=
  { fs with dirs := fun q => fs.dirs q || q == p || (ancestorsOf p).contains q }

/-- `path.flatten(path.dirname(filePath), lang)` (source line 301). -/
def langDir (lang : String) (fp : String) : String := joinPath (dirname fp) lang

/-- `path.flatten(languagePath, path.basename(filePath))` (source line 307). -/
def destPath (lang : String) (fp : String) : String :=
  joinPath (langDir lang fp) (basename fp)

/-- The body of the write loop (source lines 300–312): make the language
directory, then write the serialized page.  `w = (filePath, html)`. -/
def applyWrite (lang : String) (fs : FS) (w : String × String) : FS :=
  writeFile (mkdirRec fs (langDir lang w.1)) (destPath lang w.1) w.2

/-- `updatedHtmlFiles.forEach(write)` for one language. -/
def applyWrites (lang : String) (ws : List (String × String)) (fs : FS) : FS :=
  ws.foldl (applyWrite lang) fs

/-- One iteration of the `languages.forEach` loop (source lines 230–313):
re-read every file, run the document pass, then write all results for this
language.  Returns the new filesystem, the generated page paths in order,
and the event trace. -/
def runLang (cfg : Config) (files : List String) (lang : String) (fs : FS) :
    FS × List String × List Event :=
  let trs := lookupLang cfg.table lang
  let updated := files.map (fun fp =>
    let pr := processDocument cfg lang trs (cfg.parse ((fs.files fp).getD ""))
    (fp, cfg.serialize pr.1, pr.2))
  (applyWrites lang (updated.map (fun u => (u.1, u.2.1))) fs,
    updated.map (fun u => destPath lang u.1),
    (updated.map (fun u => u.2.2)).flatten)

/-- Accumulated run state: the filesystem, `htmlResultFilePaths`, and the
event trace. -/
structure RunState where
  fs : FS
  paths : List String
  events : List Event

/-- The `languages.forEach` loop. -/
def runLangsLoop (cfg : Config) (files : List String) :
    List String → RunState → RunState
  | [], st => st
  | l :: rest, st =>
    let r := runLang cfg files l st.fs
    runLangsLoop cfg files rest ⟨r.1, st.paths ++ r.2.1, st.events ++ r.2.2⟩

/-- `closeBundle` (source lines 203–324): if discovery produced no files,
log and stop; otherwise run every declared language over every file. -/
def closeBundleRun (cfg : Config) (files : List String) (fs0 : FS) : RunState :=
  if files.isEmpty then ⟨fs0, [], [Event.discoveryEmpty]⟩
  else runLangsLoop cfg files (langsOf cfg) ⟨fs0, [], []⟩

/-! ### Characterizing the run's filesystem effect

`pureWrites`/`pureEvents` describe one language's pass as a pure function of
a read map `ρ` (the source contents); `writesVal`/`runVal` give the final
value written at a path (last write wins). -/

/-- The (filePath, html) pairs a language pass writes, reading sources
through `ρ`. -/
def pureWrites (cfg : Config) (lang : String) (files : List String)
    (ρ : String → Option String) : List (String × String) :=
  files.map (fun fp => (fp, artifact cfg lang ((ρ fp).getD "")))

/-- The event trace of one language's pass, reading sources through `ρ`. -/
def pureEvents (cfg : Config) (lang : String) (files : List String)
    (ρ : String → Option String) : List Event :=
  (files.map (fun fp => docEvents cfg lang ((ρ fp).getD ""))).flatten

/-- The value left at path `q` by a write list (later writes win). -/
def writesVal (lang : String) : List (String × String) → String → Option String
  | [], _ => none
  | w :: rest, q =>
    match writesVal lang rest q with
    | some c => some c
    | none => if q = destPath lang w.1 then some w.2 else none

/-- The value left at path `q` by the whole run over a language list
(later languages win). -/
def runVal (cfg : Config) (files : List String) (ρ : String → Option String) :
    List String → String → Option String
  | [], _ => none
  | l :: rest, q =>
    match runVal cfg files ρ rest q with
    | some c => some c
    | none => writesVal l (pureWrites cfg l files ρ) q

theorem applyWrites_cons (lang : String) (w : String × String)
    (ws : List (String × String)) (fs : FS) :
    applyWrites lang (w :: ws) fs = applyWrites lang ws (applyWrite lang fs w) := rfl

theorem applyWrite_files (lang : String) (fs : FS) (w : String × String) (q : String) :
    (applyWrite lang fs w).files q =
      if q = destPath lang w.1 then some w.2 else fs.files q := rfl

theorem applyWrites_files (lang : String) (ws : List (String × String)) :
    ∀ (fs : FS) (q : String),
    (applyWrites lang ws fs).files q =
      match writesVal lang ws q with
      | some c => some c
      | none => fs.files q := by
  induction ws with
  | nil => intro fs q; rfl
  | cons w rest ih =>
    intro fs q
    rw [applyWrites_cons, ih]
    cases hv : writesVal lang rest q with
    | some c => simp [writesVal, hv]
    | none =>
      simp only [writesVal, hv, applyWrite_files]
      by_cases hq : q = destPath lang w.1 <;> simp [hq]

theorem writesVal_eq_none (lang : String) (ws : List (String × String)) (q : String)
    (h : ∀ w ∈ ws, q ≠ destPath lang w.1) : writesVal lang ws q = none := by
  induction ws with
  | nil => rfl
  | cons w rest ih =>
    have hrest : writesVal lang rest q = none :=
      ih (fun w' hw' => h w' (List.mem_cons_of_mem _ hw'))
    simp [writesVal, hrest, h w (List.mem_cons_self _ _)]

theorem writesVal_dest (cfg : Config) (lang : String) (ρ : String → Option String) :
    ∀ (files : List String) (F : String), F ∈ files →
    (files.map (destPath lang)).Nodup →
    writesVal lang (pureWrites cfg lang files ρ) (destPath lang F) =
      some (artifact cfg lang ((ρ F).getD "")) := by
  intro files
  induction files with
  | nil => intro F hF; exact absurd hF (List.not_mem_nil F)
  | cons f rest ih =>
    intro F hF hnd
    have hnd' : (rest.map (destPath lang)).Nodup := (List.nodup_cons.mp hnd).2
    by_cases hFr : F ∈ rest
    · have := ih F hFr hnd'
      simp only [pureWrites, List.map_cons, writesVal] at this ⊢
      rw [this]
    · have hFf : F = f := by
        rcases List.mem_cons.mp hF with h | h
        · exact h
        · exact absurd h hFr
      subst hFf
      have hnone : writesVal lang (pureWrites cfg lang rest ρ) (destPath lang F) = none := by
        apply writesVal_eq_none
        intro w hw
        rcases List.mem_map.mp hw with ⟨fp, hfp, hfpw⟩
        intro hcontra
        have hdm : destPath lang F ∈ rest.map (destPath lang) := by
          rw [hcontra, ← hfpw]
          exact List.mem_map_of_mem _ hfp
        exact (List.nodup_cons.mp hnd).1 hdm
      simp only [pureWrites, List.map_cons, writesVal] at hnone ⊢
      rw [hnone]
      simp

theorem runVal_eq_none (cfg : Config) (files : List String) (ρ : String → Option String) :
    ∀ (ls : List String) (q : String),
    (∀ l ∈ ls, ∀ fp ∈ files, q ≠ destPath l fp) →
    runVal cfg files ρ ls q = none := by
  intro ls
  induction ls with
  | nil => intro q h; rfl
  | cons l rest ih =>
    intro q h
    have hrest : runVal cfg files ρ rest q = none :=
      ih q (fun l' hl' => h l' (List.mem_cons_of_mem _ hl'))
    have hws : writesVal l (pureWrites cfg l files ρ) q = none := by
      apply writesVal_eq_none
      intro w hw
      rcases List.mem_map.mp hw with ⟨fp, hfp, rfl⟩
      exact h l (List.mem_cons_self _ _) fp hfp
    simp [runVal, hrest, hws]

theorem runVal_dest (cfg : Config) (files : List String) (ρ : String → Option String) :
    ∀ (ls : List String) (L F : String), L ∈ ls → F ∈ files →
    (ls.flatMap (fun l => files.map (destPath l))).Nodup →
    runVal cfg files ρ ls (destPath L F) =
      some (artifact cfg L ((ρ F).getD "")) := by
  intro ls
  induction ls with
  | nil => intro L F hL; exact absurd hL (List.not_mem_nil L)
  | cons l rest ih =>
    intro L F hL hF hnd
    rw [List.flatMap_cons] at hnd
    rcases List.nodup_append.mp hnd with ⟨hnd1, hnd2, hdisj⟩
    by_cases hLr : L ∈ rest
    · have := ih L F hLr hF hnd2
      simp only [runVal]
      rw [this]
    · have hLl : L = l := by
        rcases List.mem_cons.mp hL with h | h
        · exact h
        · exact absurd h hLr
      subst hLl
      have hmem : destPath L F ∈ files.map (destPath L) := List.mem_map_of_mem _ hF
      have hnotr : destPath L F ∉ rest.flatMap (fun l => files.map (destPath l)) :=
        fun hc => hdisj hmem hc
      have hrest : runVal cfg files ρ rest (destPath L F) = none := by
        apply runVal_eq_none
        intro l' hl' fp hfp hcontra
        apply hnotr
        rw [hcontra]
        exact List.mem_flatMap.mpr ⟨l', hl', List.mem_map_of_mem _ hfp⟩
      have hws := writesVal_dest cfg L ρ files F hF hnd1
      simp only [runVal]
      rw [hrest, hws]

theorem applyWrite_dirs (lang : String) (fs : FS) (w : String × String) (q : String) :
    (applyWrite lang fs w).dirs q =
      (fs.dirs q || q == langDir lang w.1 ||
        (ancestorsOf (langDir lang w.1)).contains q) := rfl

theorem applyWrites_dirs_mono (lang : String) (ws : List (String × String)) :
    ∀ (fs : FS) (q : String), fs.dirs q = true →
    (applyWrites lang ws fs).dirs q = true := by
  induction ws with
  | nil => intro fs q h; exact h
  | cons w rest ih =>
    intro fs q h
    rw [applyWrites_cons]
    apply ih
    rw [applyWrite_dirs, h]
    simp

theorem applyWrites_dirs_mem (lang : String) (ws : List (String × String)) :
    ∀ (fs : FS) (w : String × String), w ∈ ws →
    (applyWrites lang ws fs).dirs (langDir lang w.1) = true := by
  induction ws with
  | nil => intro fs w h; exact absurd h (List.not_mem_nil w)
  | cons w0 rest ih =>
    intro fs w hw
    rw [applyWrites_cons]
    rcases List.mem_cons.mp hw with h | h
    · subst h
      apply applyWrites_dirs_mono
      rw [applyWrite_dirs]
      simp
    · exact ih _ w h

/-- One language pass, described purely: when the filesystem agrees with the
read map `ρ` on every discovered file, `runLang` writes exactly the pass's
artifacts, returns the destination paths in file order, and emits the pure
event trace. -/
theorem runLang_eq (cfg : Config) (files : List String) (lang : String) (fs : FS)
    (ρ : String → Option String) (hag : ∀ fp ∈ files, fs.files fp = ρ fp) :
    runLang cfg files lang fs =
      (applyWrites lang (pureWrites cfg lang files ρ) fs,
       files.map (destPath lang), pureEvents cfg lang files ρ) := by
  have hmap : files.map (fun fp =>
      let pr := processDocument cfg lang (lookupLang cfg.table lang)
        (cfg.parse ((fs.files fp).getD ""))
      (fp, cfg.serialize pr.1, pr.2)) =
    files.map (fun fp =>
      (fp, artifact cfg lang ((ρ fp).getD ""), docEvents cfg lang ((ρ fp).getD ""))) := by
    apply List.map_congr_left
    intro fp hfp
    simp only [artifact, docEvents, hag fp hfp]
  unfold runLang
  simp only [hmap]
  simp only [pureWrites, pureEvents, List.map_map, Function.comp_def]

/-- The `languages.forEach` loop, described purely.  Hypotheses: the current
filesystem agrees with the read map `ρ` on every discovered file, and no
destination path collides with a discovered file (true in particular for the
default glob, where sources sit directly in the output directory and
destinations in per-language subdirectories). -/
theorem runLangsLoop_spec (cfg : Config) (files : List String)
    (ρ : String → Option String) :
    ∀ (ls : List String) (st : RunState),
    (∀ fp ∈ files, st.fs.files fp = ρ fp) →
    (∀ l ∈ ls, ∀ fp ∈ files, destPath l fp ∉ files) →
    (runLangsLoop cfg files ls st).paths =
        st.paths ++ ls.flatMap (fun l => files.map (destPath l)) ∧
    (runLangsLoop cfg files ls st).events =
        st.events ++ ls.flatMap (fun l => pureEvents cfg l files ρ) ∧
    (∀ q, (runLangsLoop cfg files ls st).fs.files q =
        match runVal cfg files ρ ls q with
        | some c => some c
        | none => st.fs.files q) ∧
    (∀ q, st.fs.dirs q = true → (runLangsLoop cfg files ls st).fs.dirs q = true) ∧
    (∀ l ∈ ls, ∀ fp ∈ files,
        (runLangsLoop cfg files ls st).fs.dirs (langDir l fp) = true) := by
  intro ls
  induction ls with
  | nil =>
    intro st hag hdst
    refine ⟨by simp [runLangsLoop], by simp [runLangsLoop], ?_, ?_, ?_⟩
    · intro q; simp [runLangsLoop, runVal]
    · intro q h; exact h
    · intro l hl; exact absurd hl (List.not_mem_nil l)
  | cons l rest ih =>
    intro st hag hdst
    have hloop : runLangsLoop cfg files (l :: rest) st =
        runLangsLoop cfg files rest
          ⟨applyWrites l (pureWrites cfg l files ρ) st.fs,
           st.paths ++ files.map (destPath l),
           st.events ++ pureEvents cfg l files ρ⟩ := by
      show runLangsLoop cfg files rest _ = _
      rw [runLang_eq cfg files l st.fs ρ hag]
    have hag' : ∀ fp ∈ files,
        (applyWrites l (pureWrites cfg l files ρ) st.fs).files fp = ρ fp := by
      intro fp hfp
      rw [applyWrites_files]
      have hnone : writesVal l (pureWrites cfg l files ρ) fp = none := by
        apply writesVal_eq_none
        intro w hw hcontra
        rcases List.mem_map.mp hw with ⟨fp', hfp', rfl⟩
        have := hdst l (List.mem_cons_self _ _) fp' hfp'
        rw [← hcontra] at this
        exact this hfp
      rw [hnone]
      exact hag fp hfp
    have hdst' : ∀ l' ∈ rest, ∀ fp ∈ files, destPath l' fp ∉ files :=
      fun l' hl' => hdst l' (List.mem_cons_of_mem _ hl')
    rcases ih ⟨applyWrites l (pureWrites cfg l files ρ) st.fs,
        st.paths ++ files.map (destPath l),
        st.events ++ pureEvents cfg l files ρ⟩ hag' hdst' with
      ⟨hp, he, hf, hdm, hdmem⟩
    rw [hloop]
    refine ⟨?_, ?_, ?_, ?_, ?_⟩
    · rw [hp]; simp [List.flatMap_cons]
    · rw [he]; simp [List.flatMap_cons]
    · intro q
      rw [hf q]
      show _ = match runVal cfg files ρ (l :: rest) q with
        | some c => some c
        | none => st.fs.files q
      rw [applyWrites_files]
      cases hr : runVal cfg files ρ rest q with
      | some c => simp [runVal, hr]
      | none =>
        cases hw : writesVal l (pureWrites cfg l files ρ) q with
        | some c => simp [runVal, hr, hw]
        | none => simp [runVal, hr, hw]
    · intro q h
      apply hdm
      exact applyWrites_dirs_mono l _ st.fs q h
    · intro l' hl' fp hfp
      rcases List.mem_cons.mp hl' with h | h
      · subst h
        apply hdm
        have hw : (fp, artifact cfg l' ((ρ fp).getD "")) ∈
            pureWrites cfg l' files ρ := List.mem_map_of_mem _ hfp
        exact applyWrites_dirs_mem l' _ st.fs _ hw
      · exact hdmem l' h fp hfp

/-- `closeBundle` on a non-empty discovery, described purely in terms of a
read map `ρ` that agrees with the initial filesystem on the discovered
files. -/
theorem closeBundleRun_spec (cfg : Config) (files : List String) (fs0 : FS)
    (ρ : String → Option String)
    (hag : ∀ fp ∈ files, fs0.files fp = ρ fp)
    (hne : files ≠ [])
    (hdst : ∀ l ∈ langsOf cfg, ∀ fp ∈ files, destPath l fp ∉ files) :
    (closeBundleRun cfg files fs0).paths =
        (langsOf cfg).flatMap (fun l => files.map (destPath l)) ∧
    (closeBundleRun cfg files fs0).events =
        (langsOf cfg).flatMap (fun l => pureEvents cfg l files ρ) ∧
    (∀ q, (closeBundleRun cfg files fs0).fs.files q =
        match runVal cfg files ρ (langsOf cfg) q with
        | some c => some c
        | none => fs0.files q) ∧
    (∀ l ∈ langsOf cfg, ∀ fp ∈ files,
        (closeBundleRun cfg files fs0).fs.dirs (langDir l fp) = true) := by
  have hni : files.isEmpty = false := by
    cases files with
    | nil => exact absurd rfl hne
    | cons f r => rfl
  have hrun : closeBundleRun cfg files fs0 =
      runLangsLoop cfg files (langsOf cfg) ⟨fs0, [], []⟩ := by
    unfold closeBundleRun
    rw [hni]
    rfl
  rcases runLangsLoop_spec cfg files ρ (langsOf cfg) ⟨fs0, [], []⟩ hag hdst with
    ⟨hp, he, hf, _, hdmem⟩
  rw [hrun]
  exact ⟨by simpa using hp, by simpa using he, hf, hdmem⟩

/-- No run ever removes or modifies a discovered source file (there is no
deletion code in `closeBundle`): as long as no destination path collides
with a source path, the source entry is untouched. -/
theorem closeBundleRun_source_unchanged (cfg : Config) (files : List String)
    (fs0 : FS) (F : String) (hF : F ∈ files)
    (hdst : ∀ l ∈ langsOf cfg, ∀ fp ∈ files, destPath l fp ∉ files) :
    (closeBundleRun cfg files fs0).fs.files F = fs0.files F := by
  have hne : files ≠ [] := by
    intro h
    rw [h] at hF
    exact List.not_mem_nil F hF
  rcases closeBundleRun_spec cfg files fs0 fs0.files (fun _ _ => rfl) hne hdst with
    ⟨_, _, hf, _⟩
  rw [hf F]
  have hnone : runVal cfg files fs0.files (langsOf cfg) F = none := by
    apply runVal_eq_none
    intro l hl fp hfp hcontra
    have := hdst l hl fp hfp
    rw [← hcontra] at this
    exact this hF
  rw [hnone]

/-! ### Per-element trace characterizations -/

theorem mem_warnEvents_iff (hooks : Hooks) (lang : String) (trs : Translations)
    (key : String) (x : Event) :
    x ∈ warnEvents hooks lang trs key ↔
      (x = Event.warn key lang ∧ falsyOpt (lookupTr trs key) = true ∧
       hooks.verbose = true ∧
       hooks.missingTranslationVerboseFilter key lang trs = true) := by
  unfold warnEvents
  split_ifs with h1 h2 h3 <;> simp_all

theorem warn_mem_processElement (hooks : Hooks) (lang : String) (trs : Translations)
    (da : List (String × String)) (e : Element) (k l' : String) :
    Event.warn k l' ∈ (processElement hooks lang trs da e).2 ↔
      (hooks.getTranslationKey e = some k ∧ k ≠ "" ∧ l' = lang ∧
       falsyOpt (lookupTr trs k) = true ∧ hooks.verbose = true ∧
       hooks.missingTranslationVerboseFilter k lang trs = true) := by
  cases hk : hooks.getTranslationKey e with
  | none => simp [processElement, hk]
  | some key =>
    by_cases hkey : key = ""
    · subst hkey
      simp [processElement, hk]
      rintro rfl
      simp
    · cases hm : hooks.modifyElement with
      | none =>
        simp [processElement, hk, hkey, hm, mem_warnEvents_iff]
        constructor
        · rintro ⟨⟨rfl, rfl⟩, h⟩
          exact ⟨rfl, hkey, rfl, h⟩
        · rintro ⟨rfl, hk0, rfl, h⟩
          exact ⟨⟨rfl, rfl⟩, h⟩
      | some m =>
        simp [processElement, hk, hkey, hm, mem_warnEvents_iff]
        constructor
        · rintro ⟨⟨rfl, rfl⟩, h⟩
          exact ⟨rfl, hkey, rfl, h⟩
        · rintro ⟨rfl, hk0, rfl, h⟩
          exact ⟨⟨rfl, rfl⟩, h⟩

theorem warn_not_mem_beforeEvents (hooks : Hooks) (k l' : String) :
    Event.warn k l' ∉ beforeEvents hooks := by
  cases h : hooks.modifyDocumentBefore <;> simp [beforeEvents, h]

theorem warn_not_mem_afterEvents (hooks : Hooks)
    (da : List (String × String)) (k l' : String) :
    Event.warn k l' ∉ afterEvents hooks da := by
  cases h : hooks.modifyDocumentAfter <;> simp [afterEvents, h]

/-- Document-level warning characterization: a warning `(k, l')` is emitted
during a pass iff some element (after the before-hook ran) is selected,
bears the truthy key `k`, the looked-up value is falsy, and the diagnostics
gates are open. -/
theorem warn_mem_processDocument (cfg : Config) (lang : String)
    (trs : Translations) (d : Document) (k l' : String) :
    Event.warn k l' ∈ (processDocument cfg lang trs d).2 ↔
      ∃ e ∈ (applyBefore cfg.hooks lang trs d).elems,
        cfg.selector e = true ∧
        cfg.hooks.getTranslationKey e = some k ∧ k ≠ "" ∧ l' = lang ∧
        falsyOpt (lookupTr trs k) = true ∧ cfg.hooks.verbose = true ∧
        cfg.hooks.missingTranslationVerboseFilter k lang trs = true := by
  unfold processDocument
  simp only [List.mem_append, List.mem_flatten, List.mem_map,
    warn_not_mem_beforeEvents, warn_not_mem_afterEvents, false_or, or_false]
  constructor
  · rintro ⟨evts, ⟨p, ⟨e, he, rfl⟩, rfl⟩, hmem⟩
    by_cases hsel : cfg.selector e = true
    · simp only [hsel, if_true] at hmem
      rcases (warn_mem_processElement cfg.hooks lang trs _ e k l').mp hmem with
        ⟨h1, h2, h3, h4, h5, h6⟩
      exact ⟨e, he, hsel, h1, h2, h3, h4, h5, h6⟩
    · rw [Bool.not_eq_true] at hsel
      rw [hsel] at hmem
      simp at hmem
  · rintro ⟨e, he, hsel, h1, h2, h3, h4, h5, h6⟩
    refine ⟨(processElement cfg.hooks lang trs
        (applyBefore cfg.hooks lang trs d).docAttrs e).2, ⟨?_, ?_⟩, ?_⟩
    · exact (if cfg.selector e then
          processElement cfg.hooks lang trs
            (applyBefore cfg.hooks lang trs d).docAttrs e
        else (e, []))
    · exact ⟨⟨e, he, rfl⟩, by simp only [hsel, if_true]⟩
    · exact (warn_mem_processElement cfg.hooks lang trs _ e k l').mpr
        ⟨h1, h2, h3, h4, h5, h6⟩

/-- Every `mutate` event of one element's trace carries the document
attributes the element step was given and the raw (pre-format) looked-up
value of its own key. -/
theorem mutate_mem_processElement (hooks : Hooks) (lang : String)
    (trs : Translations) (da : List (String × String)) (e : Element)
    (k : String) (v : Option String) (a : List (String × String)) :
    Event.mutate k v a ∈ (processElement hooks lang trs da e).2 →
      a = da ∧ v = lookupTr trs k := by
  cases hk : hooks.getTranslationKey e with
  | none => simp [processElement, hk]
  | some key =>
    by_cases hkey : key = ""
    · subst hkey
      simp [processElement, hk]
    · cases hm : hooks.modifyElement with
      | none =>
        simp [processElement, hk, hkey, hm, mem_warnEvents_iff]
      | some m =>
        simp [processElement, hk, hkey, hm, mem_warnEvents_iff]
        rintro rfl rfl rfl
        exact ⟨rfl, rfl⟩


theorem processElement_block_shape (hooks : Hooks) (lang : String)
    (trs : Translations) (da : List (String × String)) (e : Element)
    (k : String) (hk : hooks.getTranslationKey e = some k) (hk0 : k ≠ "") :
    ∃ ws ms r,
      (processElement hooks lang trs da e).2 =
        Event.extract (some k) :: (ws ++ Event.format k (lookupTr trs k) r :: ms) ∧
      (∀ x ∈ ws, ∃ k2 l2, x = Event.warn k2 l2) ∧
      (∀ x ∈ ms, x = Event.mutate k (lookupTr trs k) da) := by
  cases hm : hooks.modifyElement with
  | none =>
    refine ⟨warnEvents hooks lang trs k, [], renderValue hooks lang trs k, ?_, ?_, ?_⟩
    · simp [processElement, hk, hk0, hm]
    · intro x hx
      rcases (mem_warnEvents_iff hooks lang trs k x).mp hx with ⟨hw, _⟩
      exact ⟨k, lang, hw⟩
    · intro x hx
      simp at hx
  | some m =>
    refine ⟨warnEvents hooks lang trs k,
        [Event.mutate k (lookupTr trs k) da], renderValue hooks lang trs k, ?_, ?_, ?_⟩
    · simp [processElement, hk, hk0, hm]
    · intro x hx
      rcases (mem_warnEvents_iff hooks lang trs k x).mp hx with ⟨hw, _⟩
      exact ⟨k, lang, hw⟩
    · intro x hx
      simpa using hx

theorem mutate_not_mem_beforeEvents (hooks : Hooks) (k : String)
    (v : Option String) (a : List (String × String)) :
    Event.mutate k v a ∉ beforeEvents hooks := by
  cases h : hooks.modifyDocumentBefore <;> simp [beforeEvents, h]

theorem mutate_not_mem_afterEvents (hooks : Hooks)
    (da : List (String × String)) (k : String) (v : Option String)
    (a : List (String × String)) :
    Event.mutate k v a ∉ afterEvents hooks da := by
  cases h : hooks.modifyDocumentAfter <;> simp [afterEvents, h]

theorem mutate_mem_processDocument (cfg : Config) (lang : String)
    (trs : Translations) (d : Document) (k : String) (v : Option String)
    (a : List (String × String)) :
    Event.mutate k v a ∈ (processDocument cfg lang trs d).2 →
      a = (applyBefore cfg.hooks lang trs d).docAttrs ∧ v = lookupTr trs k := by
  unfold processDocument
  simp only [List.mem_append, List.mem_flatten, List.mem_map]
  rintro ((hx | ⟨evts, ⟨p, ⟨e, he, rfl⟩, rfl⟩, hmem⟩) | hx)
  · exact absurd hx (mutate_not_mem_beforeEvents cfg.hooks k v a)
  · by_cases hsel : cfg.selector e = true
    · simp only [hsel, if_true] at hmem
      exact mutate_mem_processElement cfg.hooks lang trs _ e k v a hmem
    · rw [Bool.not_eq_true] at hsel
      rw [hsel] at hmem
      simp at hmem
  · exact absurd hx (mutate_not_mem_afterEvents cfg.hooks _ k v a)

theorem processDocument_trace (cfg : Config) (lang : String) (trs : Translations)
    (d : Document) (f g : Document → DocMeta → Document)
    (hb : cfg.hooks.modifyDocumentBefore = some f)
    (ha : cfg.hooks.modifyDocumentAfter = some g) :
    (processDocument cfg lang trs d).2 =
      Event.beforeHook ::
        ((((applyBefore cfg.hooks lang trs d).elems.map (fun e =>
            if cfg.selector e then
              (processElement cfg.hooks lang trs
                (applyBefore cfg.hooks lang trs d).docAttrs e).2
            else [])).flatten) ++
          [Event.afterHook (applyBefore cfg.hooks lang trs d).docAttrs]) := by
  unfold processDocument
  simp only [beforeEvents, afterEvents, hb, ha, List.map_map]
  simp [Function.comp_def, apply_ite]


/-! ### Fallible view: caller-supplied functions may throw

The same pipeline, with every caller-supplied function returning
`Except ε`: a thrown exception propagates out of `closeBundle` with no
handler anywhere in the plugin.  A failed language pass performs no writes
(the `updatedHtmlFiles.map` phase precedes the write loop). -/

structure HooksE (ε : Type) where
  getTranslationKey : Element → Except ε (Option String)
  formatTranslation : Option (Option String → TrMeta → Except ε String)
  modifyElement : Option (Element → Option String → TrMeta → Except ε Element)
  modifyDocumentBefore : Option (Document → DocMeta → Except ε Document)
  modifyDocumentAfter : Option (Document → DocMeta → Except ε Document)
  verbose : Bool
  missingTranslationVerboseFilter : String → String → Translations → Except ε Bool

structure ConfigE (ε : Type) where
  table : TranslationTable
  selector : Element → Bool
  hooks : HooksE ε
  parse : String → Document
  serialize : Document → String

def langsOfE {ε} (cfg : ConfigE ε) : List String := cfg.table.map (fun p => p.1)

def processElementE {ε} (hooks : HooksE ε) (lang : String) (trs : Translations)
    (docAttrs : List (String × String)) (e : Element) :
    Except ε (Element × List Event) := do
  let key? ← hooks.getTranslationKey e
  match key? with
  | none => pure (e, [Event.extract none])
  | some key =>
    if key = "" then pure (e, [Event.extract (some "")])
    else do
      let warnEvts ←
        if falsyOpt (lookupTr trs key) then
          if hooks.verbose then do
            let need ← hooks.missingTranslationVerboseFilter key lang trs
            pure (if need then [Event.warn key lang] else [])
          else pure []
        else pure []
      let r ←
        match hooks.formatTranslation with
        | some f => f (lookupTr trs key) ⟨key, lang, trs⟩
        | none => pure (jsOrEmpty (lookupTr trs key))
      let e1 : Element := { e with innerHTML := r }
      match hooks.modifyElement with
      | some m => do
        let e2 ← m e1 (lookupTr trs key) ⟨key, lang, trs⟩
        pure (e2, Event.extract (some key) :: (warnEvts ++
          [Event.format key (lookupTr trs key) r,
           Event.mutate key (lookupTr trs key) docAttrs]))
      | none =>
        pure (e1, Event.extract (some key) :: (warnEvts ++
          [Event.format key (lookupTr trs key) r]))

/-- Effectful `map` (`Array.prototype.map` with a throwing callback). -/
def mapME {ε α β : Type} (f : α → Except ε β) : List α → Except ε (List β)
  | [] => pure []
  | a :: as => do
    let b ← f a
    let bs ← mapME f as
    pure (b :: bs)

def applyBeforeE {ε} (hooks : HooksE ε) (lang : String) (trs : Translations)
    (d : Document) : Except ε Document :=
  match hooks.modifyDocumentBefore with
  | some f => f d ⟨lang, trs⟩
  | none => pure d

def applyAfterE {ε} (hooks : HooksE ε) (lang : String) (trs : Translations)
    (d : Document) : Except ε Document :=
  match hooks.modifyDocumentAfter with
  | some g => g d ⟨lang, trs⟩
  | none => pure d

def beforeEventsE {ε} (hooks : HooksE ε) : List Event :=
  match hooks.modifyDocumentBefore with
  | some _ => [Event.beforeHook]
  | none => []

def afterEventsE {ε} (hooks : HooksE ε) (docAttrs : List (String × String)) :
    List Event :=
  match hooks.modifyDocumentAfter with
  | some _ => [Event.afterHook docAttrs]
  | none => []

def processDocumentE {ε} (cfg : ConfigE ε) (lang : String) (trs : Translations)
    (d : Document) : Except ε (Document × List Event) := do
  let d1 ← applyBeforeE cfg.hooks lang trs d
  let processed ← mapME (fun e =>
      if cfg.selector e then processElementE cfg.hooks lang trs d1.docAttrs e
      else pure (e, [])) d1.elems
  let d2 : Document := ⟨d1.docAttrs, processed.map (fun p => p.1)⟩
  let d3 ← applyAfterE cfg.hooks lang trs d2
  pure (d3, beforeEventsE cfg.hooks ++ (processed.map (fun p => p.2)).flatten ++
    afterEventsE cfg.hooks d2.docAttrs)

/-- One (file, language) pass in the fallible view. -/
def passE {ε} (cfg : ConfigE ε) (lang : String) (html : String) :
    Except ε (Document × List Event) :=
  processDocumentE cfg lang (lookupLang cfg.table lang) (cfg.parse html)

def runLangE {ε} (cfg : ConfigE ε) (files : List String) (lang : String)
    (fs : FS) : Except ε (FS × List String × List Event) := do
  let updated ← mapME (fun fp => do
      let pr ← passE cfg lang ((fs.files fp).getD "")
      pure (fp, cfg.serialize pr.1, pr.2)) files
  pure (applyWrites lang (updated.map (fun u => (u.1, u.2.1))) fs,
    updated.map (fun u => destPath lang u.1),
    (updated.map (fun u => u.2.2)).flatten)

/-- The `languages.forEach` loop: a thrown exception stops the loop; the
state already produced (earlier languages' writes) persists on disk. -/
def runLangsLoopE {ε} (cfg : ConfigE ε) (files : List String) :
    List String → RunState → RunState × Option ε
  | [], st => (st, none)
  | l :: rest, st =>
    match runLangE cfg files l st.fs with
    | Except.error e => (st, some e)
    | Except.ok r =>
      runLangsLoopE cfg files rest ⟨r.1, st.paths ++ r.2.1, st.events ++ r.2.2⟩

def closeBundleRunE {ε} (cfg : ConfigE ε) (files : List String) (fs0 : FS) :
    RunState × Option ε :=
  if files.isEmpty then (⟨fs0, [], [Event.discoveryEmpty]⟩, none)
  else runLangsLoopE cfg files (langsOfE cfg) ⟨fs0, [], []⟩


theorem mapME_append_err {ε α β : Type} (f : α → Except ε β) (e : ε) :
    ∀ (F1 : List α) (a : α) (F2 : List α),
    (∀ x ∈ F1, ∃ b, f x = Except.ok b) → f a = Except.error e →
    mapME f (F1 ++ a :: F2) = Except.error e := by
  intro F1
  induction F1 with
  | nil =>
    intro a F2 hok herr
    simp only [List.nil_append, mapME, herr]
    rfl
  | cons x rest ih =>
    intro a F2 hok herr
    rcases hok x (List.mem_cons_self _ _) with ⟨b, hb⟩
    have hrest := ih a F2 (fun y hy => hok y (List.mem_cons_of_mem _ hy)) herr
    simp only [List.cons_append, mapME, hb, List.append_eq, hrest]
    rfl

theorem mapME_pass_ok {ε : Type} (cfg : ConfigE ε) (lang : String) (fs : FS) :
    ∀ (files : List String),
    (∀ fp ∈ files, ∃ r, passE cfg lang ((fs.files fp).getD "") = Except.ok r) →
    ∃ us, mapME (fun fp => do
        let pr ← passE cfg lang ((fs.files fp).getD "")
        pure (fp, cfg.serialize pr.1, pr.2)) files = Except.ok us ∧
      us.map (fun u => u.1) = files := by
  intro files
  induction files with
  | nil => exact fun _ => ⟨[], rfl, rfl⟩
  | cons fp rest ih =>
    intro h
    rcases h fp (List.mem_cons_self _ _) with ⟨r, hr⟩
    rcases ih (fun y hy => h y (List.mem_cons_of_mem _ hy)) with ⟨us, hus, hmap⟩
    refine ⟨(fp, cfg.serialize r.1, r.2) :: us, ?_, ?_⟩
    · simp only [mapME, hr, hus]
      rfl
    · simp [hmap]

theorem runLangE_ok {ε : Type} (cfg : ConfigE ε) (files : List String)
    (lang : String) (fs : FS)
    (h : ∀ fp ∈ files, ∃ r, passE cfg lang ((fs.files fp).getD "") = Except.ok r) :
    ∃ ws evts, runLangE cfg files lang fs =
        Except.ok (applyWrites lang ws fs, files.map (destPath lang), evts) ∧
      ws.map (fun w => w.1) = files := by
  rcases mapME_pass_ok cfg lang fs files h with ⟨us, hus, hmap⟩
  refine ⟨us.map (fun u => (u.1, u.2.1)), (us.map (fun u => u.2.2)).flatten, ?_, ?_⟩
  · unfold runLangE
    rw [hus]
    show Except.ok _ = _
    have hpaths : us.map (fun u => destPath lang u.1) = files.map (destPath lang) := by
      rw [← hmap, List.map_map]
      rfl
    rw [hpaths]
  · rw [List.map_map, ← hmap]
    rfl

theorem runLangE_err {ε : Type} (cfg : ConfigE ε) (lang : String) (fs : FS)
    (e : ε) (F1 : List String) (fj : String) (F2 : List String)
    (hok : ∀ fp ∈ F1, ∃ r, passE cfg lang ((fs.files fp).getD "") = Except.ok r)
    (herr : passE cfg lang ((fs.files fj).getD "") = Except.error e) :
    runLangE cfg (F1 ++ fj :: F2) lang fs = Except.error e := by
  unfold runLangE
  have := mapME_append_err (fun fp => do
      let pr ← passE cfg lang ((fs.files fp).getD "")
      pure (fp, cfg.serialize pr.1, pr.2)) e F1 fj F2 ?hok ?herr
  · rw [this]
    rfl
  case hok =>
    intro x hx
    rcases hok x hx with ⟨r, hr⟩
    exact ⟨(x, cfg.serialize r.1, r.2), by simp only [hr]; rfl⟩
  case herr =>
    simp only [herr]
    rfl


/-- The loop in the fallible view, when the first failure happens while
processing language `l` (all languages in `L1` before it succeed): the
exception propagates, the loop stops, and only `L1`'s writes happened. -/
theorem runLangsLoopE_first_err {ε : Type} (cfg : ConfigE ε)
    (files : List String) (fs0 : FS) (l : String) (L2 : List String) (e : ε)
    (hfail : ∀ fs : FS, (∀ fp ∈ files, fs.files fp = fs0.files fp) →
        runLangE cfg files l fs = Except.error e) :
    ∀ (L1 : List String) (st : RunState),
    (∀ fp ∈ files, st.fs.files fp = fs0.files fp) →
    (∀ l' ∈ L1, ∀ fp ∈ files, destPath l' fp ∉ files) →
    (∀ l' ∈ L1, ∀ fp ∈ files,
        ∃ r, passE cfg l' ((fs0.files fp).getD "") = Except.ok r) →
    ∃ stO : RunState,
      runLangsLoopE cfg files (L1 ++ l :: L2) st = (stO, some e) ∧
      stO.paths = st.paths ++ L1.flatMap (fun l' => files.map (destPath l')) ∧
      (∀ fp ∈ files, stO.fs.files fp = fs0.files fp) ∧
      (∀ q, (∀ l' ∈ L1, ∀ fp ∈ files, q ≠ destPath l' fp) →
        stO.fs.files q = st.fs.files q) := by
  intro L1
  induction L1 with
  | nil =>
    intro st hag hdst hok
    refine ⟨st, ?_, by simp, hag, fun q _ => rfl⟩
    show runLangsLoopE cfg files (l :: L2) st = (st, some e)
    simp only [runLangsLoopE, hfail st.fs hag]
  | cons l' L1' ih =>
    intro st hag hdst hok
    have hok' : ∀ fp ∈ files,
        ∃ r, passE cfg l' ((st.fs.files fp).getD "") = Except.ok r := by
      intro fp hfp
      rw [hag fp hfp]
      exact hok l' (List.mem_cons_self _ _) fp hfp
    rcases runLangE_ok cfg files l' st.fs hok' with ⟨ws, evts, hrl, hws⟩
    have hwne : ∀ q, q ∈ files → writesVal l' ws q = none := by
      intro q hq
      apply writesVal_eq_none
      intro w hw hcontra
      have hw1 : w.1 ∈ files := by
        rw [← hws]
        exact List.mem_map_of_mem _ hw
      have := hdst l' (List.mem_cons_self _ _) w.1 hw1
      rw [← hcontra] at this
      exact this hq
    have hag' : ∀ fp ∈ files,
        (applyWrites l' ws st.fs).files fp = fs0.files fp := by
      intro fp hfp
      rw [applyWrites_files, hwne fp hfp]
      exact hag fp hfp
    rcases ih ⟨applyWrites l' ws st.fs,
        st.paths ++ files.map (destPath l'), st.events ++ evts⟩ hag'
        (fun l2 h2 => hdst l2 (List.mem_cons_of_mem _ h2))
        (fun l2 h2 => hok l2 (List.mem_cons_of_mem _ h2)) with
      ⟨stO, hloop, hpaths, hfiles, hpres⟩
    refine ⟨stO, ?_, ?_, hfiles, ?_⟩
    · show runLangsLoopE cfg files (l' :: (L1' ++ l :: L2)) st = (stO, some e)
      simp only [runLangsLoopE, hrl]
      exact hloop
    · rw [hpaths]
      simp [List.flatMap_cons]
    · intro q hq
      rw [hpres q (fun l2 h2 => hq l2 (List.mem_cons_of_mem _ h2))]
      show (applyWrites l' ws st.fs).files q = st.fs.files q
      rw [applyWrites_files]
      have : writesVal l' ws q = none := by
        apply writesVal_eq_none
        intro w hw hcontra
        have hw1 : w.1 ∈ files := by
          rw [← hws]
          exact List.mem_map_of_mem _ hw
        exact hq l' (List.mem_cons_self _ _) w.1 hw1 hcontra
      rw [this]


/-! ### Bridge: with non-throwing hooks the fallible pipeline is the pure one -/

def liftHooks {ε : Type} (h : Hooks) : HooksE ε where
  getTranslationKey := fun e => pure (h.getTranslationKey e)
  formatTranslation := h.formatTranslation.map (fun f v m => pure (f v m))
  modifyElement := h.modifyElement.map (fun m e v mt => pure (m e v mt))
  modifyDocumentBefore := h.modifyDocumentBefore.map (fun f d m => pure (f d m))
  modifyDocumentAfter := h.modifyDocumentAfter.map (fun g d m => pure (g d m))
  verbose := h.verbose
  missingTranslationVerboseFilter := fun k l t =>
    pure (h.missingTranslationVerboseFilter k l t)

theorem processElementE_lift {ε : Type} (h : Hooks) (lang : String)
    (trs : Translations) (da : List (String × String)) (e : Element) :
    processElementE (liftHooks (ε := ε) h) lang trs da e =
      Except.ok (processElement h lang trs da e) := by
  cases hk : h.getTranslationKey e with
  | none =>
    simp [processElementE, processElement, liftHooks, hk]
    rfl
  | some key =>
    by_cases hkey : key = ""
    · subst hkey
      simp [processElementE, processElement, liftHooks, hk]
      rfl
    · cases hf : h.formatTranslation with
      | none =>
        cases hm : h.modifyElement with
        | none =>
          simp [processElementE, processElement, liftHooks, hk, hkey, hf, hm,
            warnEvents, renderValue]
          split_ifs <;> rfl
        | some m =>
          simp [processElementE, processElement, liftHooks, hk, hkey, hf, hm,
            warnEvents, renderValue]
          split_ifs <;> rfl
      | some f =>
        cases hm : h.modifyElement with
        | none =>
          simp [processElementE, processElement, liftHooks, hk, hkey, hf, hm,
            warnEvents, renderValue]
          split_ifs <;> rfl
        | some m =>
          simp [processElementE, processElement, liftHooks, hk, hkey, hf, hm,
            warnEvents, renderValue]
          split_ifs <;> rfl


def liftConfig {ε : Type} (cfg : Config) : ConfigE ε where
  table := cfg.table
  selector := cfg.selector
  hooks := liftHooks cfg.hooks
  parse := cfg.parse
  serialize := cfg.serialize

theorem mapME_elems_lift {ε : Type} (cfg : Config) (lang : String)
    (trs : Translations) (da : List (String × String)) :
    ∀ (es : List Element),
    mapME (fun e => if cfg.selector e then
        processElementE (liftHooks (ε := ε) cfg.hooks) lang trs da e
      else pure (e, [])) es =
      Except.ok (es.map (fun e => if cfg.selector e then
        processElement cfg.hooks lang trs da e else (e, []))) := by
  intro es
  induction es with
  | nil => rfl
  | cons e rest ih =>
    by_cases hsel : cfg.selector e = true
    · simp only [mapME, ih, List.map_cons, hsel, if_true]
      rw [processElementE_lift]
      rfl
    · rw [Bool.not_eq_true] at hsel
      simp only [mapME, ih, List.map_cons, hsel, Bool.false_eq_true, if_false]
      rfl

theorem applyBeforeE_lift {ε : Type} (h : Hooks) (lang : String)
    (trs : Translations) (d : Document) :
    applyBeforeE (liftHooks (ε := ε) h) lang trs d =
      Except.ok (applyBefore h lang trs d) := by
  cases hb : h.modifyDocumentBefore <;>
    simp [applyBeforeE, applyBefore, liftHooks, hb] <;> rfl

theorem applyAfterE_lift {ε : Type} (h : Hooks) (lang : String)
    (trs : Translations) (d : Document) :
    applyAfterE (liftHooks (ε := ε) h) lang trs d =
      Except.ok (applyAfter h lang trs d) := by
  cases ha : h.modifyDocumentAfter <;>
    simp [applyAfterE, applyAfter, liftHooks, ha] <;> rfl

theorem beforeEventsE_lift {ε : Type} (h : Hooks) :
    beforeEventsE (liftHooks (ε := ε) h) = beforeEvents h := by
  cases hb : h.modifyDocumentBefore <;>
    simp [beforeEventsE, beforeEvents, liftHooks, hb]

theorem afterEventsE_lift {ε : Type} (h : Hooks)
    (da : List (String × String)) :
    afterEventsE (liftHooks (ε := ε) h) da = afterEvents h da := by
  cases ha : h.modifyDocumentAfter <;>
    simp [afterEventsE, afterEvents, liftHooks, ha]

theorem exceptOkBind {ε α β : Type} (a : α) (f : α → Except ε β) :
    (Except.ok a >>= f : Except ε β) = f a := rfl

theorem processDocumentE_lift {ε : Type} (cfg : Config) (lang : String)
    (trs : Translations) (d : Document) :
    processDocumentE (liftConfig (ε := ε) cfg) lang trs d =
      Except.ok (processDocument cfg lang trs d) := by
  show (applyBeforeE (liftHooks cfg.hooks) lang trs d >>= fun d1 =>
      mapME (fun e => if cfg.selector e then
          processElementE (liftHooks cfg.hooks) lang trs d1.docAttrs e
        else pure (e, [])) d1.elems >>= fun processed =>
      applyAfterE (liftHooks cfg.hooks) lang trs
          ⟨d1.docAttrs, processed.map (fun p => p.1)⟩ >>= fun d3 =>
      pure (d3, beforeEventsE (liftHooks cfg.hooks) ++
        (processed.map (fun p => p.2)).flatten ++
        afterEventsE (liftHooks cfg.hooks) d1.docAttrs)) = _
  rw [applyBeforeE_lift, exceptOkBind]
  rw [mapME_elems_lift, exceptOkBind]
  rw [applyAfterE_lift, exceptOkBind]
  rw [beforeEventsE_lift, afterEventsE_lift]
  rfl

theorem passE_lift {ε : Type} (cfg : Config) (lang : String) (html : String) :
    passE (liftConfig (ε := ε) cfg) lang html =
      Except.ok (processDocument cfg lang (lookupLang cfg.table lang)
        (cfg.parse html)) := by
  unfold passE
  exact processDocumentE_lift cfg lang (lookupLang cfg.table lang) (cfg.parse html)

theorem runLangE_lift {ε : Type} (cfg : Config) (files : List String)
    (lang : String) (fs : FS) :
    runLangE (liftConfig (ε := ε) cfg) files lang fs =
      Except.ok (runLang cfg files lang fs) := by
  have hmap : ∀ (l : List String), mapME (fun fp => do
      let pr ← passE (liftConfig (ε := ε) cfg) lang ((fs.files fp).getD "")
      pure (fp, (liftConfig (ε := ε) cfg).serialize pr.1, pr.2)) l =
      Except.ok (l.map (fun fp =>
        let pr := processDocument cfg lang (lookupLang cfg.table lang)
          (cfg.parse ((fs.files fp).getD ""))
        (fp, cfg.serialize pr.1, pr.2))) := by
    intro l
    induction l with
    | nil => rfl
    | cons fp rest ih =>
      simp only [mapME, ih]
      rw [passE_lift]
      rfl
  unfold runLangE runLang
  rw [hmap]
  rfl

theorem runLangsLoopE_lift {ε : Type} (cfg : Config) (files : List String) :
    ∀ (ls : List String) (st : RunState),
    runLangsLoopE (liftConfig (ε := ε) cfg) files ls st =
      (runLangsLoop cfg files ls st, none) := by
  intro ls
  induction ls with
  | nil => intro st; rfl
  | cons l rest ih =>
    intro st
    simp only [runLangsLoopE, runLangsLoop, runLangE_lift]
    exact ih _

/-- With hooks that never throw, the fallible pipeline returns exactly the
pure pipeline's result and no exception. -/
theorem closeBundleRunE_lift {ε : Type} (cfg : Config) (files : List String)
    (fs0 : FS) :
    closeBundleRunE (liftConfig (ε := ε) cfg) files fs0 =
      (closeBundleRun cfg files fs0, none) := by
  unfold closeBundleRunE closeBundleRun
  by_cases h : files.isEmpty <;> simp only [h, if_true, if_false] <;>
    first
      | rfl
      | exact runLangsLoopE_lift cfg files (langsOf cfg) ⟨fs0, [], []⟩


/-! ### Concrete fixture (example-style configuration) -/

/-- A toy parse capability: one element carrying `data-i18n="hello"` whose
`innerHTML` is the source text. -/
def testParse (html : String) : Document :=
  ⟨[], [⟨[("data-i18n", "hello")], html⟩]⟩

/-- A toy serialize capability: inner HTML of all elements plus the
document attributes. -/
def testSerialize (d : Document) : String :=
  String.intercalate "|" (d.elems.map (fun e => e.innerHTML)) ++
    String.intercalate "" (d.docAttrs.map (fun a => a.1 ++ "=" ++ a.2))

/-- Hooks in the shape of the repository's example: key from the
`data-i18n` attribute, no optional hooks, defaults for the rest. -/
def baseHooks : Hooks where
  getTranslationKey := fun e => lookupTr e.attrs "data-i18n"
  formatTranslation := none
  modifyElement := none
  modifyDocumentBefore := none
  modifyDocumentAfter := none
  verbose := true
  missingTranslationVerboseFilter := fun _ _ _ => true

/-- The example configuration: `en`/`fr` tables with the key `hello`. -/
def cfgEx : Config where
  table := [("en", [("hello", "Hello")]), ("fr", [("hello", "Bonjour")])]
  selector := fun e => (lookupTr e.attrs "data-i18n").isSome
  hooks := baseHooks
  parse := testParse
  serialize := testSerialize

/-- An output directory holding one source page. -/
def fsEx : FS :=
  ⟨fun q => if q = "dist/index.html" then some "<div>x</div>" else none,
   fun _ => false⟩

/-! ### The claims -/

/-- C1: the spec's `deleteSourceHtmlFiles` behaviour (source files removed
after all languages have been written) is documented in the repository's
README and set in its example config, but the plugin implementation has no
deletion code at all: after a full run over `dist/index.html` with
languages `en` and `fr`, both per-language outputs exist, yet the source
file still exists with its original content. -/
theorem C1_source_never_deleted :
    (closeBundleRun cfgEx ["dist/index.html"] fsEx).fs.files "dist/index.html" =
      some "<div>x</div>" ∧
    ((closeBundleRun cfgEx ["dist/index.html"] fsEx).fs.files
      "dist/en/index.html").isSome = true ∧
    ((closeBundleRun cfgEx ["dist/index.html"] fsEx).fs.files
      "dist/fr/index.html").isSome = true :=
  ⟨rfl, rfl, rfl⟩

/-- C2 counterexample: the key `hello` is present in the language table
(with value `""`), yet a missing-translation warning is emitted, because
the source tests `!translations[lang][key]` (JS falsiness), not
`undefined`. -/
theorem C2_counterexample_present_key_warns :
    lookupTr [("hello", "")] "hello" = some "" ∧
    Event.warn "hello" "en" ∈
      (processElement baseHooks "en" [("hello", "")] []
        ⟨[("data-i18n", "hello")], "x"⟩).2 :=
  ⟨rfl, by decide⟩

/-- C2 amended: for a pass over a document, a warning for `(k, l')` is
emitted iff `l'` is the current language and some element surviving the
before-hook is selected, bears the truthy key `k`, the looked-up value
`table[lang][k]` is falsy — `undefined` OR the empty string, not only
`undefined` — `verbose` is on, and the filter accepts `(k, lang)`. -/
theorem C2_warn_iff_falsy (cfg : Config) (lang : String) (trs : Translations)
    (d : Document) (k l' : String) :
    Event.warn k l' ∈ (processDocument cfg lang trs d).2 ↔
      ∃ e ∈ (applyBefore cfg.hooks lang trs d).elems,
        cfg.selector e = true ∧
        cfg.hooks.getTranslationKey e = some k ∧ k ≠ "" ∧ l' = lang ∧
        falsyOpt (lookupTr trs k) = true ∧ cfg.hooks.verbose = true ∧
        cfg.hooks.missingTranslationVerboseFilter k lang trs = true :=
  warn_mem_processDocument cfg lang trs d k l'

/-- A format hook that distinguishes `undefined` from `""`. -/
def fmtProbe : Option String → TrMeta → String := fun v _ =>
  match v with
  | none => "UNDEF"
  | some s => "S:" ++ s

def probeHooks : Hooks :=
  { baseHooks with formatTranslation := some fmtProbe }

/-- C3 counterexample: with the key `hello` absent from the table, the
configured format hook receives `undefined` (`none`) — not the empty
string — as its value argument: the element's content becomes the hook's
result on `none` (`"UNDEF"`), not its result on `""` (`"S:"`). -/
theorem C3_counterexample_format_gets_undefined :
    (processElement probeHooks "en" [] []
        ⟨[("data-i18n", "hello")], "x"⟩).2 =
      [Event.extract (some "hello"), Event.warn "hello" "en",
       Event.format "hello" none "UNDEF"] ∧
    (processElement probeHooks "en" [] []
        ⟨[("data-i18n", "hello")], "x"⟩).1.innerHTML = "UNDEF" ∧
    fmtProbe (some "") ⟨"hello", "en", []⟩ = "S:" ∧
    lookupTr ([] : Translations) "hello" = none :=
  ⟨rfl, rfl, rfl, rfl⟩

/-- C3 amended: a missing key never fails the element step (with
non-throwing hooks the fallible step returns `ok`); with no format hook and
no modify hook the element's inner content becomes the empty string; a
configured format hook receives the undefined value `none` — not `""` —
and the content becomes its result on `none`. -/
theorem C3_missing_key_fallback {ε : Type} (hooks : Hooks) (lang : String)
    (trs : Translations) (da : List (String × String)) (e : Element)
    (k : String) (hk : hooks.getTranslationKey e = some k) (hk0 : k ≠ "")
    (hm : lookupTr trs k = none) :
    (hooks.formatTranslation = none → hooks.modifyElement = none →
      (processElement hooks lang trs da e).1 = { e with innerHTML := "" }) ∧
    (hooks.formatTranslation = none →
      Event.format k none "" ∈ (processElement hooks lang trs da e).2) ∧
    (∀ f, hooks.formatTranslation = some f →
      Event.format k none (f none ⟨k, lang, trs⟩) ∈
        (processElement hooks lang trs da e).2) ∧
    processElementE (liftHooks (ε := ε) hooks) lang trs da e =
      Except.ok (processElement hooks lang trs da e) := by
  refine ⟨?_, ?_, ?_, processElementE_lift hooks lang trs da e⟩
  · intro hf hme
    simp [processElement, hk, hk0, hf, hme, renderValue, hm, jsOrEmpty]
  · intro hf
    cases hme : hooks.modifyElement <;>
      simp [processElement, hk, hk0, hf, hme, renderValue, hm, jsOrEmpty]
  · intro f hf
    cases hme : hooks.modifyElement <;>
      simp [processElement, hk, hk0, hf, hme, renderValue, hm]

theorem C3_missing_key_fallback_witness :
    (baseHooks.formatTranslation = none → baseHooks.modifyElement = none →
      (processElement baseHooks "en" [] []
        ⟨[("data-i18n", "hello")], "x"⟩).1 =
          { attrs := [("data-i18n", "hello")], innerHTML := "" }) ∧
    (baseHooks.formatTranslation = none →
      Event.format "hello" none "" ∈
        (processElement baseHooks "en" [] []
          ⟨[("data-i18n", "hello")], "x"⟩).2) ∧
    (∀ f, baseHooks.formatTranslation = some f →
      Event.format "hello" none (f none ⟨"hello", "en", []⟩) ∈
        (processElement baseHooks "en" [] []
          ⟨[("data-i18n", "hello")], "x"⟩).2) ∧
    processElementE (liftHooks (ε := String) baseHooks) "en" [] []
        ⟨[("data-i18n", "hello")], "x"⟩ =
      Except.ok (processElement baseHooks "en" [] []
        ⟨[("data-i18n", "hello")], "x"⟩) :=
  C3_missing_key_fallback (ε := String) baseHooks "en" [] []
    ⟨[("data-i18n", "hello")], "x"⟩ "hello" rfl (by decide) rfl

/-- C10: an element whose extracted key is the empty string is skipped
exactly like a null key (`if (key)` is JS-falsy on both): the element is
returned unchanged and the trace holds only the extraction — no lookup, no
warning, no format, no mutate. -/
theorem C10_empty_key_skipped (hooks : Hooks) (lang : String)
    (trs : Translations) (da : List (String × String)) (e : Element)
    (h : hooks.getTranslationKey e = none ∨ hooks.getTranslationKey e = some "") :
    (processElement hooks lang trs da e).1 = e ∧
    (processElement hooks lang trs da e).2 =
      [Event.extract (hooks.getTranslationKey e)] := by
  rcases h with h | h <;> simp [processElement, h]

theorem C10_empty_key_skipped_witness :
    (processElement baseHooks "en" [("hello", "Hello")] []
        ⟨[("data-i18n", "")], "x"⟩).1 = ⟨[("data-i18n", "")], "x"⟩ ∧
    (processElement baseHooks "en" [("hello", "Hello")] []
        ⟨[("data-i18n", "")], "x"⟩).2 =
      [Event.extract (baseHooks.getTranslationKey ⟨[("data-i18n", "")], "x"⟩)] :=
  C10_empty_key_skipped baseHooks "en" [("hello", "Hello")] []
    ⟨[("data-i18n", "")], "x"⟩ (Or.inr rfl)


/-- C4: with a before-hook `f` and an after-hook `g` configured, the pass
is strictly ordered: the before-hook runs first (the processed document is
`f d meta`); each selected element is processed in document order with a
block of the form extract → warnings → format (content assignment) →
mutate; the after-hook observes the document attributes left by the
before-hook; every mutate event carries the pre-format looked-up value `V`
(not the rendered fragment) and the before-hook's document attributes; and
the serialized result is the after-hook's output, whose attributes still
are the before-hook's. -/
theorem C4_hook_sequence (cfg : Config) (lang : String) (trs : Translations)
    (d : Document) (f g : Document → DocMeta → Document)
    (hb : cfg.hooks.modifyDocumentBefore = some f)
    (ha : cfg.hooks.modifyDocumentAfter = some g) :
    applyBefore cfg.hooks lang trs d = f d ⟨lang, trs⟩ ∧
    (processDocument cfg lang trs d).2 =
      Event.beforeHook ::
        ((((applyBefore cfg.hooks lang trs d).elems.map (fun e =>
            if cfg.selector e then
              (processElement cfg.hooks lang trs
                (applyBefore cfg.hooks lang trs d).docAttrs e).2
            else [])).flatten) ++
          [Event.afterHook (applyBefore cfg.hooks lang trs d).docAttrs]) ∧
    (∀ e k, cfg.hooks.getTranslationKey e = some k → k ≠ "" →
      ∃ ws ms r,
        (processElement cfg.hooks lang trs
            (applyBefore cfg.hooks lang trs d).docAttrs e).2 =
          Event.extract (some k) ::
            (ws ++ Event.format k (lookupTr trs k) r :: ms) ∧
        (∀ x ∈ ws, ∃ k2 l2, x = Event.warn k2 l2) ∧
        (∀ x ∈ ms, x = Event.mutate k (lookupTr trs k)
            (applyBefore cfg.hooks lang trs d).docAttrs)) ∧
    (∀ k v a, Event.mutate k v a ∈ (processDocument cfg lang trs d).2 →
      a = (applyBefore cfg.hooks lang trs d).docAttrs ∧ v = lookupTr trs k) ∧
    (∃ d2 : Document, (processDocument cfg lang trs d).1 = g d2 ⟨lang, trs⟩ ∧
      d2.docAttrs = (applyBefore cfg.hooks lang trs d).docAttrs) := by
  refine ⟨by simp [applyBefore, hb],
    processDocument_trace cfg lang trs d f g hb ha, ?_,
    fun k v a => mutate_mem_processDocument cfg lang trs d k v a, ?_⟩
  · intro e k hk hk0
    exact processElement_block_shape cfg.hooks lang trs _ e k hk hk0
  · refine ⟨⟨(applyBefore cfg.hooks lang trs d).docAttrs,
      ((applyBefore cfg.hooks lang trs d).elems.map (fun e =>
        if cfg.selector e then
          processElement cfg.hooks lang trs
            (applyBefore cfg.hooks lang trs d).docAttrs e
        else (e, []))).map (fun p => p.1)⟩, ?_, rfl⟩
    simp [processDocument, applyAfter, ha]

/-- A before-hook that stamps the language onto the document. -/
def beforeFn : Document → DocMeta → Document :=
  fun d m => ⟨("lang", m.language) :: d.docAttrs, d.elems⟩

/-- A trivial after-hook. -/
def afterFn : Document → DocMeta → Document := fun d _ => d

/-- Hooks with all optional slots filled, for exercising the ordering. -/
def hookedHooks : Hooks :=
  { baseHooks with
    modifyDocumentBefore := some beforeFn
    modifyDocumentAfter := some afterFn
    modifyElement := some (fun e _ _ => e) }

def cfgHooked : Config := { cfgEx with hooks := hookedHooks }

theorem C4_hook_sequence_witness :
    applyBefore cfgHooked.hooks "en" [("hello", "Hello")]
        (testParse "<div>x</div>") =
      beforeFn (testParse "<div>x</div>") ⟨"en", [("hello", "Hello")]⟩ ∧
    (processDocument cfgHooked "en" [("hello", "Hello")]
        (testParse "<div>x</div>")).2 =
      Event.beforeHook ::
        ((((applyBefore cfgHooked.hooks "en" [("hello", "Hello")]
              (testParse "<div>x</div>")).elems.map (fun e =>
            if cfgHooked.selector e then
              (processElement cfgHooked.hooks "en" [("hello", "Hello")]
                (applyBefore cfgHooked.hooks "en" [("hello", "Hello")]
                  (testParse "<div>x</div>")).docAttrs e).2
            else [])).flatten) ++
          [Event.afterHook (applyBefore cfgHooked.hooks "en"
            [("hello", "Hello")] (testParse "<div>x</div>")).docAttrs]) ∧
    (∀ e k, cfgHooked.hooks.getTranslationKey e = some k → k ≠ "" →
      ∃ ws ms r,
        (processElement cfgHooked.hooks "en" [("hello", "Hello")]
            (applyBefore cfgHooked.hooks "en" [("hello", "Hello")]
              (testParse "<div>x</div>")).docAttrs e).2 =
          Event.extract (some k) ::
            (ws ++ Event.format k (lookupTr [("hello", "Hello")] k) r :: ms) ∧
        (∀ x ∈ ws, ∃ k2 l2, x = Event.warn k2 l2) ∧
        (∀ x ∈ ms, x = Event.mutate k (lookupTr [("hello", "Hello")] k)
            (applyBefore cfgHooked.hooks "en" [("hello", "Hello")]
              (testParse "<div>x</div>")).docAttrs)) ∧
    (∀ k v a, Event.mutate k v a ∈
        (processDocument cfgHooked "en" [("hello", "Hello")]
          (testParse "<div>x</div>")).2 →
      a = (applyBefore cfgHooked.hooks "en" [("hello", "Hello")]
          (testParse "<div>x</div>")).docAttrs ∧
        v = lookupTr [("hello", "Hello")] k) ∧
    (∃ d2 : Document,
      (processDocument cfgHooked "en" [("hello", "Hello")]
          (testParse "<div>x</div>")).1 = afterFn d2 ⟨"en", [("hello", "Hello")]⟩ ∧
      d2.docAttrs = (applyBefore cfgHooked.hooks "en" [("hello", "Hello")]
          (testParse "<div>x</div>")).docAttrs) :=
  C4_hook_sequence cfgHooked "en" [("hello", "Hello")]
    (testParse "<div>x</div>") beforeFn afterFn rfl rfl


theorem mkdirRec_idem (fs : FS) (p : String) :
    mkdirRec (mkdirRec fs p) p = mkdirRec fs p := by
  cases fs with
  | mk fls drs =>
    simp only [mkdirRec]
    congr 1
    funext q
    have hb : ∀ x a b : Bool, ((x || a || b) || a || b) = (x || a || b) := by
      decide
    exact hb _ _ _

/-- C5: under the standard layout (destinations disjoint from sources and
pairwise distinct), the artifact stored at `dest(M, F)` after a full run is
a pure function of F's original source text, the language `M` (through its
table `table[M]`, looked up inside `artifact`), and the configuration's
hooks — so nothing any other language's pass did can appear in it. -/
theorem C5_language_isolation (cfg : Config) (files : List String) (fs0 : FS)
    (F M : String) (hF : F ∈ files) (hM : M ∈ langsOf cfg)
    (hdst : ∀ l ∈ langsOf cfg, ∀ fp ∈ files, destPath l fp ∉ files)
    (hnd : ((langsOf cfg).flatMap (fun l => files.map (destPath l))).Nodup) :
    (closeBundleRun cfg files fs0).fs.files (destPath M F) =
      some (artifact cfg M ((fs0.files F).getD "")) := by
  have hne : files ≠ [] := by
    intro h
    rw [h] at hF
    exact List.not_mem_nil F hF
  rcases closeBundleRun_spec cfg files fs0 fs0.files (fun _ _ => rfl) hne hdst with
    ⟨_, _, hf, _⟩
  rw [hf, runVal_dest cfg files fs0.files (langsOf cfg) M F hM hF hnd]

theorem C5_language_isolation_witness :
    ("dist/index.html" ∈ ["dist/index.html"]) ∧
    ("fr" ∈ langsOf cfgEx) ∧
    (closeBundleRun cfgEx ["dist/index.html"] fsEx).fs.files
        (destPath "fr" "dist/index.html") =
      some (artifact cfgEx "fr" ((fsEx.files "dist/index.html").getD "")) :=
  ⟨by decide, by decide,
    C5_language_isolation cfgEx ["dist/index.html"] fsEx
      "dist/index.html" "fr" (by decide) (by decide) (by decide) (by decide)⟩

/-- C6: under the standard layout, every (file, language) pair has exactly
one artifact, stored at `dir(F)/L/basename(F)`; the language directory is
created; `mkdirSync{recursive}` is idempotent; and `writeFileSync`
overwrites whatever was at the destination. -/
theorem C6_artifact_locations (cfg : Config) (files : List String) (fs0 : FS)
    (F L : String) (hF : F ∈ files) (hL : L ∈ langsOf cfg)
    (hdst : ∀ l ∈ langsOf cfg, ∀ fp ∈ files, destPath l fp ∉ files)
    (hnd : ((langsOf cfg).flatMap (fun l => files.map (destPath l))).Nodup) :
    ((closeBundleRun cfg files fs0).fs.files (destPath L F)).isSome = true ∧
    (closeBundleRun cfg files fs0).paths.count (destPath L F) = 1 ∧
    (closeBundleRun cfg files fs0).fs.dirs (langDir L F) = true ∧
    (∀ fs p c, (writeFile fs p c).files p = some c) ∧
    (∀ fs p, mkdirRec (mkdirRec fs p) p = mkdirRec fs p) := by
  have hne : files ≠ [] := by
    intro h
    rw [h] at hF
    exact List.not_mem_nil F hF
  rcases closeBundleRun_spec cfg files fs0 fs0.files (fun _ _ => rfl) hne hdst with
    ⟨hp, _, hf, hd⟩
  refine ⟨?_, ?_, hd L hL F hF, ?_, mkdirRec_idem⟩
  · rw [hf, runVal_dest cfg files fs0.files (langsOf cfg) L F hL hF hnd]
    rfl
  · rw [hp]
    exact List.count_eq_one_of_mem hnd
      (List.mem_flatMap.mpr ⟨L, hL, List.mem_map_of_mem _ hF⟩)
  · intro fs p c
    simp [writeFile]

theorem C6_artifact_locations_witness :
    ((closeBundleRun cfgEx ["dist/index.html"] fsEx).fs.files
        (destPath "en" "dist/index.html")).isSome = true ∧
    (closeBundleRun cfgEx ["dist/index.html"] fsEx).paths.count
        (destPath "en" "dist/index.html") = 1 ∧
    (closeBundleRun cfgEx ["dist/index.html"] fsEx).fs.dirs
        (langDir "en" "dist/index.html") = true ∧
    (∀ fs p c, (writeFile fs p c).files p = some c) ∧
    (∀ fs p, mkdirRec (mkdirRec fs p) p = mkdirRec fs p) :=
  C6_artifact_locations cfgEx ["dist/index.html"] fsEx
    "dist/index.html" "en" (by decide) (by decide) (by decide) (by decide)

/-- C9: re-running on the run's own output (sources are untouched, so the
re-read sees identical input) gives byte-identical artifact contents at
every path, the same result paths and the same events; and the run
iterates languages in the table's key order and files in discovery order
(the result paths are exactly `langs ×ₗ files` mapped to destinations). -/
theorem C9_deterministic_idempotent (cfg : Config) (files : List String)
    (fs0 : FS) (hne : files ≠ [])
    (hdst : ∀ l ∈ langsOf cfg, ∀ fp ∈ files, destPath l fp ∉ files) :
    (∀ q, (closeBundleRun cfg files (closeBundleRun cfg files fs0).fs).fs.files q =
        (closeBundleRun cfg files fs0).fs.files q) ∧
    (closeBundleRun cfg files (closeBundleRun cfg files fs0).fs).paths =
        (closeBundleRun cfg files fs0).paths ∧
    (closeBundleRun cfg files (closeBundleRun cfg files fs0).fs).events =
        (closeBundleRun cfg files fs0).events ∧
    (closeBundleRun cfg files fs0).paths =
        (langsOf cfg).flatMap (fun l => files.map (destPath l)) := by
  rcases closeBundleRun_spec cfg files fs0 fs0.files (fun _ _ => rfl) hne hdst with
    ⟨hp1, he1, hf1, _⟩
  have hag2 : ∀ fp ∈ files,
      (closeBundleRun cfg files fs0).fs.files fp = fs0.files fp :=
    fun fp hfp => closeBundleRun_source_unchanged cfg files fs0 fp hfp hdst
  rcases closeBundleRun_spec cfg files (closeBundleRun cfg files fs0).fs
      fs0.files hag2 hne hdst with ⟨hp2, he2, hf2, _⟩
  refine ⟨?_, by rw [hp1, hp2], by rw [he1, he2], hp1⟩
  intro q
  rw [hf2 q]
  cases hv : runVal cfg files fs0.files (langsOf cfg) q with
  | some c =>
    rw [hf1 q, hv]
  | none =>
    rfl

theorem C9_deterministic_idempotent_witness :
    (∀ q, (closeBundleRun cfgEx ["dist/index.html"]
          (closeBundleRun cfgEx ["dist/index.html"] fsEx).fs).fs.files q =
        (closeBundleRun cfgEx ["dist/index.html"] fsEx).fs.files q) ∧
    (closeBundleRun cfgEx ["dist/index.html"]
        (closeBundleRun cfgEx ["dist/index.html"] fsEx).fs).paths =
      (closeBundleRun cfgEx ["dist/index.html"] fsEx).paths ∧
    (closeBundleRun cfgEx ["dist/index.html"]
        (closeBundleRun cfgEx ["dist/index.html"] fsEx).fs).events =
      (closeBundleRun cfgEx ["dist/index.html"] fsEx).events ∧
    (closeBundleRun cfgEx ["dist/index.html"] fsEx).paths =
      (langsOf cfgEx).flatMap (fun l => ["dist/index.html"].map (destPath l)) :=
  C9_deterministic_idempotent cfgEx ["dist/index.html"] fsEx
    (by decide) (by decide)


/-- C7: if, with all earlier languages' passes succeeding, some hook raises
while processing language `l` (the pass for file `fj` errors after the
passes for the files before it succeed), then the whole run stops with that
exception: the result carries the error, only the earlier languages'
destination paths were generated, every source file is untouched, and no
path outside the earlier languages' destinations was written — in
particular the failing language and all later languages wrote nothing. -/
theorem C7_hook_failure_aborts {ε : Type} (cfg : ConfigE ε)
    (files : List String) (fs0 : FS) (L1 : List String) (l : String)
    (L2 : List String) (e : ε)
    (hL : langsOfE cfg = L1 ++ l :: L2)
    (hdst : ∀ l' ∈ L1, ∀ fp ∈ files, destPath l' fp ∉ files)
    (hok : ∀ l' ∈ L1, ∀ fp ∈ files,
        ∃ r, passE cfg l' ((fs0.files fp).getD "") = Except.ok r)
    (F1 : List String) (fj : String) (F2 : List String)
    (hsplit : files = F1 ++ fj :: F2)
    (hokf : ∀ fp ∈ F1, ∃ r, passE cfg l ((fs0.files fp).getD "") = Except.ok r)
    (herr : passE cfg l ((fs0.files fj).getD "") = Except.error e) :
    ∃ stO : RunState,
      closeBundleRunE cfg files fs0 = (stO, some e) ∧
      stO.paths = L1.flatMap (fun l' => files.map (destPath l')) ∧
      (∀ fp ∈ files, stO.fs.files fp = fs0.files fp) ∧
      (∀ q, (∀ l' ∈ L1, ∀ fp ∈ files, q ≠ destPath l' fp) →
        stO.fs.files q = fs0.files q) := by
  have hne : files.isEmpty = false := by
    subst hsplit
    cases F1 <;> rfl
  have hfail : ∀ fs : FS, (∀ fp ∈ files, fs.files fp = fs0.files fp) →
      runLangE cfg files l fs = Except.error e := by
    intro fs hag
    subst hsplit
    apply runLangE_err cfg l fs e F1 fj F2
    · intro fp hfp
      rw [hag fp (List.mem_append_left _ hfp)]
      exact hokf fp hfp
    · rw [hag fj (List.mem_append_right _ (List.mem_cons_self _ _))]
      exact herr
  rcases runLangsLoopE_first_err cfg files fs0 l L2 e hfail L1 ⟨fs0, [], []⟩
      (fun _ _ => rfl) hdst hok with ⟨stO, hloop, hpaths, hfiles, hpres⟩
  refine ⟨stO, ?_, by simpa using hpaths, hfiles, fun q hq => hpres q hq⟩
  unfold closeBundleRunE
  rw [hne]
  simp only [Bool.false_eq_true, if_false]
  rw [hL]
  exact hloop

/-- A hook set whose before-hook throws for the `fr` language. -/
def throwingHooksE : HooksE String where
  getTranslationKey := fun e => Except.ok (lookupTr e.attrs "data-i18n")
  formatTranslation := none
  modifyElement := none
  modifyDocumentBefore :=
    some (fun d m => if m.language = "fr" then Except.error "boom" else Except.ok d)
  modifyDocumentAfter := none
  verbose := true
  missingTranslationVerboseFilter := fun _ _ _ => Except.ok true

def cfgE7 : ConfigE String where
  table := [("en", [("hello", "Hello")]), ("fr", [("hello", "Bonjour")])]
  selector := fun e => (lookupTr e.attrs "data-i18n").isSome
  hooks := throwingHooksE
  parse := testParse
  serialize := testSerialize

theorem C7_hook_failure_aborts_witness :
    ∃ stO : RunState,
      closeBundleRunE cfgE7 ["dist/index.html"] fsEx = (stO, some "boom") ∧
      stO.paths = ["en"].flatMap (fun l' =>
        ["dist/index.html"].map (destPath l')) ∧
      (∀ fp ∈ ["dist/index.html"], stO.fs.files fp = fsEx.files fp) ∧
      (∀ q, (∀ l' ∈ ["en"], ∀ fp ∈ ["dist/index.html"],
          q ≠ destPath l' fp) → stO.fs.files q = fsEx.files q) :=
  C7_hook_failure_aborts cfgE7 ["dist/index.html"] fsEx ["en"] "fr" [] "boom"
    rfl (by decide)
    (by
      intro l' hl' fp hfp
      rw [List.mem_singleton] at hl' hfp
      subst hl'
      subst hfp
      exact ⟨_, rfl⟩)
    [] "dist/index.html" [] rfl
    (fun fp h => absurd h (List.not_mem_nil fp))
    rfl

/-- C8: when discovery returns no files, the run reports the
empty-discovery diagnostic and stops: the filesystem is untouched (zero
artifacts), no translation work happens, and — also in the fallible view —
no exception is raised. -/
theorem C8_empty_discovery {ε : Type} (cfgE : ConfigE ε) (cfg : Config)
    (fs0 : FS) :
    closeBundleRunE cfgE [] fs0 = (⟨fs0, [], [Event.discoveryEmpty]⟩, none) ∧
    closeBundleRun cfg [] fs0 = ⟨fs0, [], [Event.discoveryEmpty]⟩ :=
  ⟨rfl, rfl⟩


end I18n
